import Mathlib

/-!
Shallow embedding of `src/chain/stackchain.rs` from the `iron` repository.

The Rust code defines `StackChain`, holding a `stack` of boxed middleware and
an `exit_stack` of clones of the middleware that entered. Middleware expose
`enter` and `exit`, each taking mutable request/response/alloy and returning a
`Status` (`Continue` or `Unwind`).

Modelling choices:
* `Status` mirrors the Rust `Status` enum.
* A middleware value `Mw σ` carries an immutable identity label `mid`
  (instrumentation identifying which registered middleware it is, used to state
  ordering claims) and a mutable internal state `st : σ`. Rust's `clone_box`
  duplicates the value; in Lean's value semantics a clone is the value itself.
* A behavior table `MwB σ ε` gives the dynamic-dispatch `enter`/`exit`
  implementations: from the middleware's identity, its current state, and the
  environment (request, response and alloy bundled as `ε`, since the chain
  treats them opaquely), they return the status together with the mutated
  middleware state and environment.
* The chain operations additionally return the list of call events they
  perform, in order: `Ev.enterEv i` exactly when the enter loop invokes
  `enter` on the middleware labelled `i`, and `Ev.exitEv i` likewise for the
  exit loop. This log is the observable the ordering claims speak about.
-/

namespace Iron

/-- Rust `enum Status { Continue, Unwind }` from the middleware module. -/
inductive Status where
  | Continue : Status
  | Unwind : Status
deriving DecidableEq, Repr

/-- A boxed middleware: an identity label (which linked middleware this is /
was cloned from) plus its mutable internal state. -/
structure Mw (σ : Type) where
  mid : Nat
  st : σ
deriving DecidableEq, Repr

/-- The dynamic behavior of middleware: `enter` and `exit` implementations,
dispatching on the identity label, mutating the state and the environment. -/
structure MwB (σ ε : Type) where
  enter : Nat → σ → ε → Status × σ × ε
  exit : Nat → σ → ε → Status × σ × ε

/-- `StackChain { stack, exit_stack }` from `stackchain.rs`. -/
structure StackChain (σ : Type) where
  stack : List (Mw σ)
  exit_stack : List (Mw σ)
deriving DecidableEq, Repr

/-- A middleware call event: which middleware had `enter` (resp. `exit`)
invoked on it. -/
inductive Ev where
  | enterEv : Nat → Ev
  | exitEv : Nat → Ev
deriving DecidableEq, Repr

/-- Result of the enter loop of `chain_enter`: the returned status, the
mutated `stack`, the list pushed onto `exit_stack`, the mutated environment,
and the call events in order. -/
structure EnterResult (σ ε : Type) where
  status : Status
  stack : List (Mw σ)
  pushed : List (Mw σ)
  env : ε
  events : List Ev
deriving DecidableEq, Repr

/-- Result of a whole chain operation: returned status, the chain afterwards,
the mutated environment, and the call events in order. -/
structure ChainResult (σ ε : Type) where
  status : Status
  chain : StackChain σ
  env : ε
  events : List Ev
deriving DecidableEq, Repr

/-- The `'enter` loop of `StackChain::chain_enter`: iterate the stack in
order; on `Unwind` return immediately (the current middleware, already
mutated in place by its `enter` call, stays in the stack and is not pushed);
on `Continue` push a clone of the (mutated) middleware and keep going. -/
def enterLoop {σ ε : Type} (b : MwB σ ε) : List (Mw σ) → ε → EnterResult σ ε
  | [], e => ⟨Status.Continue, [], [], e, []⟩
  | m :: rest, e =>
    let t := b.enter m.mid m.st e
    match t.1 with
    | Status.Unwind =>
        ⟨Status.Unwind, ⟨m.mid, t.2.1⟩ :: rest, [], t.2.2, [Ev.enterEv m.mid]⟩
    | Status.Continue =>
        let r := enterLoop b rest t.2.2
        ⟨r.status, ⟨m.mid, t.2.1⟩ :: r.stack, ⟨m.mid, t.2.1⟩ :: r.pushed,
          r.env, Ev.enterEv m.mid :: r.events⟩

/-- `StackChain::chain_enter`: reset `exit_stack` to `vec![]`, then run the
enter loop over `stack`; the pushes rebuild `exit_stack`. -/
def chain_enter {σ ε : Type} (b : MwB σ ε) (c : StackChain σ) (e : ε) :
    ChainResult σ ε :=
  let r := enterLoop b c.stack e
  ⟨r.status, ⟨r.stack, r.pushed⟩, r.env, r.events⟩

/-- The `'exit` loop of `StackChain::chain_exit`: invoke `exit` on each
element in place, discarding the returned status (`let _ = ...`). -/
def exitLoop {σ ε : Type} (b : MwB σ ε) :
    List (Mw σ) → ε → List (Mw σ) × ε × List Ev
  | [], e => ([], e, [])
  | m :: rest, e =>
    let t := b.exit m.mid m.st e
    let r := exitLoop b rest t.2.2
    (⟨m.mid, t.2.1⟩ :: r.1, r.2.1, Ev.exitEv m.mid :: r.2.2)

/-- `StackChain::chain_exit`: reverse `exit_stack` in place, invoke `exit` on
each element of the reversed stack, and return `Continue`. The elements are
mutated in place but not removed. -/
def chain_exit {σ ε : Type} (b : MwB σ ε) (c : StackChain σ) (e : ε) :
    ChainResult σ ε :=
  let r := exitLoop b c.exit_stack.reverse e
  ⟨Status.Continue, ⟨c.stack, r.1⟩, r.2.1, r.2.2⟩

/-- `StackChain::link`: push the boxed middleware onto the end of `stack`. -/
def link {σ : Type} (c : StackChain σ) (m : Mw σ) : StackChain σ :=
  ⟨c.stack ++ [m], c.exit_stack⟩

/-- `StackChain::new`: both vectors empty. -/
def new {σ : Type} : StackChain σ :=
  ⟨[], []⟩

/-- `FromIterator for StackChain`: collect the iterator into `stack`,
`exit_stack` empty. -/
def from_iter {σ : Type} (ms : List (Mw σ)) : StackChain σ :=
  ⟨ms, []⟩

/-- `Clone for StackChain`: clone both vectors (deep copy; value semantics in
Lean, so the clone is the same value). -/
def clone {σ : Type} (c : StackChain σ) : StackChain σ :=
  ⟨c.stack, c.exit_stack⟩

/-- Modelled from the spec: `dispatch` is a method of the `Chain` trait whose
defining module is not part of the sources; per the spec it composes
`chain_enter` then `chain_exit` unconditionally (the exit phase runs even on
`Unwind`), discards the exit phase's status, and returns whatever
`chain_enter` returned. -/
def dispatch {σ ε : Type} (b : MwB σ ε) (c : StackChain σ) (e : ε) :
    ChainResult σ ε :=
  let r1 := chain_enter b c e
  let r2 := chain_exit b r1.chain r1.env
  ⟨r1.status, r2.chain, r2.env, r1.events ++ r2.events⟩

/-- Modelled from the spec's words, for the refinement claim about
`FromIterator`: build a chain by `new` followed by `link m1, ..., link mn` in
that order. -/
def linkAll {σ : Type} (ms : List (Mw σ)) : StackChain σ :=
  List.foldl link new ms

/-- The operations through which a caller can evolve a chain (used to state
the reachability invariant). -/
inductive Op (σ ε : Type) where
  | linkOp : Mw σ → Op σ ε
  | enterOp : ε → Op σ ε
  | exitOp : ε → Op σ ε
  | dispatchOp : ε → Op σ ε
  | cloneOp : Op σ ε
deriving DecidableEq, Repr

/-- One operation applied to a chain, keeping the resulting chain. -/
def step {σ ε : Type} (b : MwB σ ε) (c : StackChain σ) : Op σ ε → StackChain σ
  | Op.linkOp m => link c m
  | Op.enterOp e => (chain_enter b c e).chain
  | Op.exitOp e => (chain_exit b c e).chain
  | Op.dispatchOp e => (dispatch b c e).chain
  | Op.cloneOp => clone c

/-- A sequence of operations applied to a chain. -/
def run {σ ε : Type} (b : MwB σ ε) (c : StackChain σ) (ops : List (Op σ ε)) :
    StackChain σ :=
  ops.foldl (step b) c

/-- Operations that contain no enter phase (no `chain_enter`, no `dispatch`). -/
def buildOnly {σ ε : Type} : Op σ ε → Bool
  | Op.linkOp _ => true
  | Op.enterOp _ => false
  | Op.exitOp _ => true
  | Op.dispatchOp _ => false
  | Op.cloneOp => true

/-! ### Concrete instances used in witnesses and counterexamples -/

/-- Test behavior: every middleware continues on enter and exit, incrementing
its state and the environment. -/
def bCont : MwB Nat Nat :=
  ⟨fun _ s e => (Status.Continue, s + 1, e + 1),
   fun _ s e => (Status.Continue, s + 1, e + 1)⟩

/-- Test behavior: the middleware labelled `u` unwinds on enter, all others
continue. -/
def bUnw (u : Nat) : MwB Nat Nat :=
  ⟨fun i s e => (if i = u then Status.Unwind else Status.Continue, s + 1, e),
   fun _ s e => (Status.Continue, s + 1, e)⟩

/-- Test behavior whose exit always reports `Unwind`, with the same state and
environment mutations as `bCont`. -/
def bExUnw : MwB Nat Nat :=
  ⟨fun _ s e => (Status.Continue, s + 1, e + 1),
   fun _ s e => (Status.Unwind, s + 1, e + 1)⟩

/-- Stateful test behavior: continue on the first enter, unwind on any later
enter (the middleware counts its enter calls in its state). -/
def bOnce : MwB Nat Nat :=
  ⟨fun _ s e => (if s = 0 then Status.Continue else Status.Unwind, s + 1, e),
   fun _ s e => (Status.Continue, s, e)⟩

/-- Test behavior whose enter leaves the middleware state unchanged. -/
def bPure : MwB Nat Nat :=
  ⟨fun _ s e => (Status.Continue, s, e + 1),
   fun _ s e => (Status.Continue, s + 1, e)⟩

/-- A three-middleware chain with identities 0, 1, 2. -/
def chain3 : StackChain Nat :=
  ⟨[⟨0, 0⟩, ⟨1, 0⟩, ⟨2, 0⟩], []⟩

/-- A one-middleware chain with identity 0. -/
def chain1 : StackChain Nat :=
  ⟨[⟨0, 0⟩], []⟩

/-- A concrete operation sequence with no enter phase. -/
def opsBuild : List (Op Nat Nat) :=
  [Op.linkOp ⟨0, 0⟩, Op.cloneOp, Op.exitOp 5, Op.linkOp ⟨1, 0⟩]

end Iron

/-!
### Helper lemmas

Characterizations of the enter and exit loops, from which the claim theorems
follow.
-/

namespace Iron

theorem enterLoop_cons_unwind {σ ε : Type} (b : MwB σ ε) (m : Mw σ)
    (rest : List (Mw σ)) (e : ε) (h : (b.enter m.mid m.st e).1 = Status.Unwind) :
    enterLoop b (m :: rest) e =
      ⟨Status.Unwind, ⟨m.mid, (b.enter m.mid m.st e).2.1⟩ :: rest, [],
       (b.enter m.mid m.st e).2.2, [Ev.enterEv m.mid]⟩ := by
  simp only [enterLoop, h]

theorem enterLoop_cons_continue {σ ε : Type} (b : MwB σ ε) (m : Mw σ)
    (rest : List (Mw σ)) (e : ε) (h : (b.enter m.mid m.st e).1 = Status.Continue) :
    enterLoop b (m :: rest) e =
      ⟨(enterLoop b rest (b.enter m.mid m.st e).2.2).status,
       ⟨m.mid, (b.enter m.mid m.st e).2.1⟩ ::
         (enterLoop b rest (b.enter m.mid m.st e).2.2).stack,
       ⟨m.mid, (b.enter m.mid m.st e).2.1⟩ ::
         (enterLoop b rest (b.enter m.mid m.st e).2.2).pushed,
       (enterLoop b rest (b.enter m.mid m.st e).2.2).env,
       Ev.enterEv m.mid ::
         (enterLoop b rest (b.enter m.mid m.st e).2.2).events⟩ := by
  simp only [enterLoop, h]

theorem enterLoop_char {σ ε : Type} (b : MwB σ ε) :
    ∀ (l : List (Mw σ)) (e : ε), ∃ k : Nat, k ≤ l.length ∧
      (enterLoop b l e).events = ((l.map Mw.mid).take k).map Ev.enterEv ∧
      (enterLoop b l e).stack.map Mw.mid = l.map Mw.mid ∧
      (enterLoop b l e).stack.drop k = l.drop k ∧
      ((enterLoop b l e).status = Status.Continue →
        k = l.length ∧ (enterLoop b l e).pushed = (enterLoop b l e).stack) ∧
      ((enterLoop b l e).status = Status.Unwind →
        1 ≤ k ∧ (enterLoop b l e).pushed = (enterLoop b l e).stack.take (k - 1))
  | [], e => ⟨0, by simp [enterLoop]⟩
  | m :: rest, e => by
    cases h : (b.enter m.mid m.st e).1 with
    | Continue =>
      obtain ⟨k, hk, hev, hmid, hdrop, hcont, hunw⟩ :=
        enterLoop_char b rest (b.enter m.mid m.st e).2.2
      rw [enterLoop_cons_continue b m rest e h]
      refine ⟨k + 1, by simpa using Nat.succ_le_succ hk, ?_, ?_, ?_, ?_, ?_⟩
      · simp [hev]
      · simp [hmid]
      · simpa using hdrop
      · intro hs
        obtain ⟨hk1, hp⟩ := hcont hs
        subst hk1
        simp [hp]
      · intro hs
        obtain ⟨hk1, hp⟩ := hunw hs
        obtain ⟨k', rfl⟩ : ∃ k', k = k' + 1 := ⟨k - 1, by omega⟩
        refine ⟨by omega, ?_⟩
        simp [hp]
    | Unwind =>
      rw [enterLoop_cons_unwind b m rest e h]
      refine ⟨1, by simp, by simp, by simp, by simp, ?_, ?_⟩
      · intro hs; cases hs
      · intro _; simp

theorem exitLoop_char {σ ε : Type} (b : MwB σ ε) :
    ∀ (l : List (Mw σ)) (e : ε),
      (exitLoop b l e).1.map Mw.mid = l.map Mw.mid ∧
      (exitLoop b l e).2.2 = (l.map Mw.mid).map Ev.exitEv
  | [], e => by simp [exitLoop]
  | m :: rest, e => by
    obtain ⟨h1, h2⟩ := exitLoop_char b rest (b.exit m.mid m.st e).2.2
    simp [exitLoop, h1, h2]

theorem chain_exit_events {σ ε : Type} (b : MwB σ ε) (c : StackChain σ) (e : ε) :
    (chain_exit b c e).events = ((c.exit_stack.map Mw.mid).reverse).map Ev.exitEv ∧
    (chain_exit b c e).chain.exit_stack.map Mw.mid =
      (c.exit_stack.map Mw.mid).reverse ∧
    (chain_exit b c e).chain.stack = c.stack ∧
    (chain_exit b c e).status = Status.Continue := by
  obtain ⟨h1, h2⟩ := exitLoop_char b c.exit_stack.reverse e
  refine ⟨?_, ?_, rfl, rfl⟩
  · simpa [chain_exit] using h2
  · simpa [chain_exit] using h1

theorem chain_enter_char {σ ε : Type} (b : MwB σ ε) (c : StackChain σ) (e : ε) :
    ∃ k : Nat, k ≤ c.stack.length ∧
      (chain_enter b c e).events = ((c.stack.map Mw.mid).take k).map Ev.enterEv ∧
      (chain_enter b c e).chain.stack.map Mw.mid = c.stack.map Mw.mid ∧
      (chain_enter b c e).chain.stack.drop k = c.stack.drop k ∧
      ((chain_enter b c e).status = Status.Continue →
        k = c.stack.length ∧
        (chain_enter b c e).chain.exit_stack = (chain_enter b c e).chain.stack) ∧
      ((chain_enter b c e).status = Status.Unwind →
        1 ≤ k ∧
        (chain_enter b c e).chain.exit_stack =
          ((chain_enter b c e).chain.stack).take (k - 1)) := by
  obtain ⟨k, hk, hev, hmid, hdrop, hcont, hunw⟩ := enterLoop_char b c.stack e
  exact ⟨k, hk, hev, hmid, hdrop, hcont, hunw⟩

theorem chain_enter_exit_stack_mids {σ ε : Type} (b : MwB σ ε) (c : StackChain σ)
    (e : ε) :
    (chain_enter b c e).chain.exit_stack.map Mw.mid =
      (c.stack.map Mw.mid).take ((chain_enter b c e).chain.exit_stack.length) ∧
    ((chain_enter b c e).status = Status.Continue →
      (chain_enter b c e).chain.exit_stack.length = c.stack.length) ∧
    ((chain_enter b c e).status = Status.Unwind →
      (chain_enter b c e).chain.exit_stack.length < c.stack.length) := by
  obtain ⟨k, hk, hev, hmid, hdrop, hcont, hunw⟩ := chain_enter_char b c e
  have hlen : (chain_enter b c e).chain.stack.length = c.stack.length := by
    have := congrArg List.length hmid
    simpa using this
  cases hs : (chain_enter b c e).status with
  | Continue =>
    obtain ⟨hk1, hp⟩ := hcont hs
    subst hk1
    refine ⟨?_, fun _ => ?_, fun h2 => by simp [hs] at h2⟩
    · rw [hp, hmid]
      rw [hp] at *
      simp [hlen]
    · rw [hp, hlen]
  | Unwind =>
    obtain ⟨hk1, hp⟩ := hunw hs
    have hplen : (chain_enter b c e).chain.exit_stack.length = k - 1 := by
      rw [hp]
      simp
      omega
    refine ⟨?_, fun h2 => by simp [hs] at h2, fun _ => ?_⟩
    · rw [hplen, hp, List.map_take, hmid]
    · omega

end Iron

/-!
### Claim theorems
-/

namespace Iron

/-- C1: `chain_enter` first resets the exit trace (its result does not depend
on the previously stored exit trace), then invokes `enter` on the linked
middleware in registration order: its call events are the enter events of the
first `k` registered middleware, for some `k ≤ n`, with no skips or
reordering. If every enter continues, it returns `Continue` having invoked
all `n`, with the exit trace holding clones of M1..Mn (exactly the post-enter
stack) in entry order. At the first `Unwind` it stops immediately and returns
`Unwind` having invoked `k ≥ 1` middleware, the exit trace holding only
clones of the first `k - 1` (the unwinding middleware and all later ones are
excluded). -/
theorem chain_enter_order_spec {σ ε : Type} (b : MwB σ ε) (c : StackChain σ)
    (e : ε) :
    (∀ es₀ : List (Mw σ), chain_enter b ⟨c.stack, es₀⟩ e = chain_enter b c e) ∧
    ∃ k : Nat, k ≤ c.stack.length ∧
      (chain_enter b c e).events = ((c.stack.map Mw.mid).take k).map Ev.enterEv ∧
      (chain_enter b c e).chain.stack.map Mw.mid = c.stack.map Mw.mid ∧
      ((chain_enter b c e).status = Status.Continue →
        k = c.stack.length ∧
        (chain_enter b c e).chain.exit_stack = (chain_enter b c e).chain.stack) ∧
      ((chain_enter b c e).status = Status.Unwind →
        1 ≤ k ∧
        (chain_enter b c e).chain.exit_stack =
          ((chain_enter b c e).chain.stack).take (k - 1)) := by
  refine ⟨fun es₀ => rfl, ?_⟩
  obtain ⟨k, hk, hev, hmid, hdrop, hcont, hunw⟩ := chain_enter_char b c e
  exact ⟨k, hk, hev, hmid, hcont, hunw⟩

/-- Witness for C1: on a concrete three-middleware chain whose second
middleware unwinds, the reset conjunct instantiated at a junk exit trace. -/
theorem chain_enter_order_spec_witness :
    chain_enter (bUnw 1) ⟨chain3.stack, [⟨9, 9⟩]⟩ 0 = chain_enter (bUnw 1) chain3 0 :=
  (chain_enter_order_spec (bUnw 1) chain3 0).1 [⟨9, 9⟩]

/-- C2: after `chain_enter`, the exit trace holds (clones of) exactly the
registered middleware that continued — the first `|exit trace|` registered
ones, in entry order — and `chain_exit` invokes `exit` on exactly those, in
reverse entry order. On `Continue` all `n` entered; on `Unwind` strictly
fewer than `n` entered and (for distinctly-labelled middleware) the
middleware at the unwinding position never has its `exit` invoked in that
dispatch. -/
theorem chain_exit_symmetry {σ ε : Type} (b : MwB σ ε) (c : StackChain σ)
    (e : ε) :
    (chain_exit b (chain_enter b c e).chain (chain_enter b c e).env).events =
      ((((c.stack.map Mw.mid).take
        ((chain_enter b c e).chain.exit_stack.length))).reverse).map Ev.exitEv ∧
    (chain_enter b c e).chain.exit_stack.map Mw.mid =
      (c.stack.map Mw.mid).take ((chain_enter b c e).chain.exit_stack.length) ∧
    ((chain_enter b c e).status = Status.Continue →
      (chain_enter b c e).chain.exit_stack.length = c.stack.length) ∧
    ((chain_enter b c e).status = Status.Unwind →
      (chain_enter b c e).chain.exit_stack.length < c.stack.length ∧
      ∀ (u : Nat) (rest2 : List Nat),
        (c.stack.map Mw.mid).drop ((chain_enter b c e).chain.exit_stack.length) =
          u :: rest2 →
        (c.stack.map Mw.mid).Nodup →
        Ev.exitEv u ∉
          (chain_exit b (chain_enter b c e).chain (chain_enter b c e).env).events) := by
  obtain ⟨hpref, hclen, hulen⟩ := chain_enter_exit_stack_mids b c e
  obtain ⟨hev2, _, _, _⟩ :=
    chain_exit_events b (chain_enter b c e).chain (chain_enter b c e).env
  have hevents :
      (chain_exit b (chain_enter b c e).chain (chain_enter b c e).env).events =
        ((((c.stack.map Mw.mid).take
          ((chain_enter b c e).chain.exit_stack.length))).reverse).map Ev.exitEv := by
    rw [hev2, hpref]
  refine ⟨hevents, hpref, hclen, fun hs => ⟨hulen hs, ?_⟩⟩
  intro u rest2 hdropEq hnd hmem
  have hsplit : c.stack.map Mw.mid =
      (c.stack.map Mw.mid).take ((chain_enter b c e).chain.exit_stack.length) ++
        (u :: rest2) := by
    rw [← hdropEq, List.take_append_drop]
  have hnd2 := hsplit ▸ hnd
  rw [List.nodup_append] at hnd2
  have hu_not :
      u ∉ (c.stack.map Mw.mid).take ((chain_enter b c e).chain.exit_stack.length) :=
    fun hu => hnd2.2.2 hu (List.mem_cons_self u rest2)
  rw [hevents] at hmem
  simp only [List.mem_map, List.mem_reverse] at hmem
  obtain ⟨v, hv, hveq⟩ := hmem
  cases hveq
  exact hu_not hv

/-- Witness for C2: in the concrete unwind scenario (A continues, B unwinds,
C unreached), B's `exit` is not invoked. -/
theorem chain_exit_symmetry_witness :
    Ev.exitEv 1 ∉
      (chain_exit (bUnw 1) (chain_enter (bUnw 1) chain3 0).chain
        (chain_enter (bUnw 1) chain3 0).env).events :=
  ((chain_exit_symmetry (bUnw 1) chain3 0).2.2.2 (by decide)).2 1 [2]
    (by decide) (by decide)

/-- C3: `dispatch` (modelled from the spec, its trait module being outside
the sources) runs `chain_enter` then unconditionally `chain_exit` on whatever
the enter phase recorded, and returns `chain_enter`'s status; on the empty
chain, `dispatch`, `chain_enter` and `chain_exit` each return `Continue` with
no middleware calls made. -/
theorem dispatch_composes {σ ε : Type} (b : MwB σ ε) (c : StackChain σ) (e : ε) :
    (dispatch b c e).status = (chain_enter b c e).status ∧
    (dispatch b c e).chain =
      (chain_exit b (chain_enter b c e).chain (chain_enter b c e).env).chain ∧
    (dispatch b c e).env =
      (chain_exit b (chain_enter b c e).chain (chain_enter b c e).env).env ∧
    (dispatch b c e).events =
      (chain_enter b c e).events ++
        (chain_exit b (chain_enter b c e).chain (chain_enter b c e).env).events ∧
    (dispatch b (new : StackChain σ) e).status = Status.Continue ∧
    (dispatch b (new : StackChain σ) e).events = [] ∧
    (chain_enter b (new : StackChain σ) e).status = Status.Continue ∧
    (chain_enter b (new : StackChain σ) e).events = [] ∧
    (chain_exit b (new : StackChain σ) e).status = Status.Continue ∧
    (chain_exit b (new : StackChain σ) e).events = [] :=
  ⟨rfl, rfl, rfl, rfl, rfl, rfl, rfl, rfl, rfl, rfl⟩

/-- Witness for C3: concrete instance, projected to the statement that a
dispatch on an unwinding chain still reports the enter phase's status. -/
theorem dispatch_composes_witness :
    (dispatch (bUnw 0) chain1 0).status = (chain_enter (bUnw 0) chain1 0).status :=
  (dispatch_composes (bUnw 0) chain1 0).1

/-- C4: `chain_exit` always returns `Continue`, and invokes `exit` on every
element of the exit trace (in reversed order) no matter what the individual
`exit` implementations return: its events cover the whole trace for an
arbitrary behavior, and replacing the behavior by one returning different
statuses from `exit` (with the same state and environment mutations) changes
nothing about the result. -/
theorem chain_exit_total {σ ε : Type} (b b2 : MwB σ ε) (c : StackChain σ)
    (e : ε) :
    (chain_exit b c e).status = Status.Continue ∧
    (chain_exit b c e).events = ((c.exit_stack.map Mw.mid).reverse).map Ev.exitEv ∧
    (chain_exit b c e).events.length = c.exit_stack.length ∧
    ((∀ (i : Nat) (s : σ) (ev : ε), (b2.exit i s ev).2 = (b.exit i s ev).2) →
      chain_exit b2 c e = chain_exit b c e) := by
  obtain ⟨h1, _, _, h4⟩ := chain_exit_events b c e
  refine ⟨h4, h1, ?_, ?_⟩
  · rw [h1]
    simp
  · intro hsame
    have hloop : ∀ (l : List (Mw σ)) (ev : ε), exitLoop b2 l ev = exitLoop b l ev := by
      intro l
      induction l with
      | nil => intro ev; rfl
      | cons m rest ih =>
        intro ev
        simp only [exitLoop]
        rw [hsame m.mid m.st ev, ih ((b.exit m.mid m.st ev).2.2)]
    simp only [chain_exit, hloop]

/-- Witness for C4: a behavior whose every `exit` reports `Unwind` (same
mutations as `bCont`) produces the identical `chain_exit` result, so both
middleware in the trace still have `exit` invoked. -/
theorem chain_exit_total_witness :
    chain_exit bExUnw ⟨[], [⟨0, 0⟩, ⟨1, 0⟩]⟩ 0 = chain_exit bCont ⟨[], [⟨0, 0⟩, ⟨1, 0⟩]⟩ 0 :=
  (chain_exit_total bCont bExUnw ⟨[], [⟨0, 0⟩, ⟨1, 0⟩]⟩ 0).2.2.2 fun _ _ _ => rfl

end Iron

namespace Iron

/-- C5 counterexample: after entering and exiting a one-middleware chain, the
exit trace is not empty — `chain_exit` does not drain it. -/
theorem exit_trace_drained_cex :
    ¬ ((chain_exit bCont (chain_enter bCont chain1 0).chain
        (chain_enter bCont chain1 0).env).chain.exit_stack = []) := by
  decide

/-- C5 (amended): `chain_exit` does not drain the exit trace; it reverses it
in place (same element count, identity labels reversed, elements mutated by
their `exit` calls) and leaves it stored in the chain. The trace populated by
a `chain_enter` is discarded only at the start of the next `chain_enter`,
whose result is independent of the stored trace. -/
theorem exit_trace_persists {σ ε : Type} (b : MwB σ ε) (c : StackChain σ)
    (e : ε) :
    (chain_exit b c e).chain.exit_stack.length = c.exit_stack.length ∧
    (chain_exit b c e).chain.exit_stack.map Mw.mid =
      (c.exit_stack.map Mw.mid).reverse ∧
    (∀ es₀ : List (Mw σ), chain_enter b ⟨c.stack, es₀⟩ e =
      chain_enter b ⟨c.stack, []⟩ e) := by
  obtain ⟨_, h2, _, _⟩ := chain_exit_events b c e
  refine ⟨?_, h2, fun es₀ => rfl⟩
  have := congrArg List.length h2
  simpa using this

/-- Witness for C5 (amended): concrete instance of the not-drained length
equation. -/
theorem exit_trace_persists_witness :
    (chain_exit bCont ⟨[], [⟨0, 0⟩, ⟨1, 0⟩]⟩ 0).chain.exit_stack.length =
      ([(⟨0, 0⟩ : Mw Nat), ⟨1, 0⟩]).length :=
  (exit_trace_persists bCont ⟨[], [⟨0, 0⟩, ⟨1, 0⟩]⟩ 0).1

/-- C6 counterexample: a middleware that continues on its first enter and
unwinds afterwards (counting calls in its state) makes the second dispatch of
the same chain produce a different invocation sequence than the first, even
with a fresh environment. -/
theorem redispatch_same_cex :
    ¬ ((dispatch bOnce (dispatch bOnce chain1 0).chain 0).events =
        (dispatch bOnce chain1 0).events) := by
  decide

/-- C6 (amended): a dispatch is unaffected by the exit-trace state left by a
previous dispatch — its whole result depends only on the middleware stack,
since `chain_enter` resets the trace; consequently, when the middleware
`enter` implementations leave the middleware states unchanged, dispatching
the same chain twice with fresh (equal) request/response/extras produces
identical results, in particular the same enter-order and exit-order
invocation sequence both times. -/
theorem redispatch_invariant {σ ε : Type} (b : MwB σ ε) (c : StackChain σ)
    (e : ε)
    (henter : ∀ (i : Nat) (s : σ) (ev : ε), (b.enter i s ev).2.1 = s) :
    dispatch b (dispatch b c e).chain e = dispatch b c e ∧
    ∀ es₀ : List (Mw σ), dispatch b ⟨c.stack, es₀⟩ e = dispatch b c e := by
  have hpres : ∀ (l : List (Mw σ)) (ev : ε), (enterLoop b l ev).stack = l := by
    intro l
    induction l with
    | nil => intro ev; rfl
    | cons m rest ih =>
      intro ev
      cases hs : (b.enter m.mid m.st ev).1 with
      | Continue =>
        rw [enterLoop_cons_continue b m rest ev hs]
        simp [henter, ih]
      | Unwind =>
        rw [enterLoop_cons_unwind b m rest ev hs]
        simp [henter]
  have hstack : (dispatch b c e).chain.stack = c.stack := by
    simp only [dispatch, chain_exit, chain_enter]
    exact hpres c.stack e
  refine ⟨?_, fun es₀ => rfl⟩
  have : dispatch b (dispatch b c e).chain e =
      dispatch b ⟨c.stack, (dispatch b c e).chain.exit_stack⟩ e := by
    rw [← hstack]
  rw [this]
  rfl

/-- Witness for C6 (amended): with state-preserving enters, the second
dispatch of a concrete three-middleware chain equals the first. -/
theorem redispatch_invariant_witness :
    dispatch bPure (dispatch bPure chain3 0).chain 0 = dispatch bPure chain3 0 :=
  (redispatch_invariant bPure chain3 0 fun _ _ _ => rfl).1

end Iron

namespace Iron

theorem chain_enter_bound {σ ε : Type} (b : MwB σ ε) (c : StackChain σ) (e : ε) :
    (chain_enter b c e).chain.exit_stack.length ≤
      (chain_enter b c e).chain.stack.length ∧
    (chain_enter b c e).chain.stack.length = c.stack.length := by
  obtain ⟨k, hk, hev, hmid, hdrop, hcont, hunw⟩ := chain_enter_char b c e
  have hlen : (chain_enter b c e).chain.stack.length = c.stack.length := by
    have := congrArg List.length hmid
    simpa using this
  refine ⟨?_, hlen⟩
  cases hs : (chain_enter b c e).status with
  | Continue =>
    obtain ⟨_, hp⟩ := hcont hs
    rw [hp]
  | Unwind =>
    obtain ⟨_, hp⟩ := hunw hs
    rw [hp]
    simp

theorem step_bound {σ ε : Type} (b : MwB σ ε) (c : StackChain σ) (op : Op σ ε)
    (h : c.exit_stack.length ≤ c.stack.length) :
    (step b c op).exit_stack.length ≤ (step b c op).stack.length := by
  cases op with
  | linkOp m =>
    simp only [step, link, List.length_append, List.length_cons]
    omega
  | enterOp e => exact (chain_enter_bound b c e).1
  | exitOp e =>
    obtain ⟨_, h2, h3, _⟩ := chain_exit_events b c e
    have hl : (chain_exit b c e).chain.exit_stack.length = c.exit_stack.length := by
      have := congrArg List.length h2
      simpa using this
    simpa only [step, hl, h3] using h
  | dispatchOp e =>
    have hd : (dispatch b c e).chain =
        (chain_exit b (chain_enter b c e).chain (chain_enter b c e).env).chain := rfl
    obtain ⟨_, h2, h3, _⟩ :=
      chain_exit_events b (chain_enter b c e).chain (chain_enter b c e).env
    have hl : (dispatch b c e).chain.exit_stack.length =
        (chain_enter b c e).chain.exit_stack.length := by
      rw [hd]
      have := congrArg List.length h2
      simpa using this
    have hst : (dispatch b c e).chain.stack = (chain_enter b c e).chain.stack := by
      rw [hd, h3]
    simp only [step, hl, hst]
    exact (chain_enter_bound b c e).1
  | cloneOp => exact h

theorem run_bound {σ ε : Type} (b : MwB σ ε) :
    ∀ (ops : List (Op σ ε)) (c : StackChain σ),
      c.exit_stack.length ≤ c.stack.length →
      (run b c ops).exit_stack.length ≤ (run b c ops).stack.length
  | [], _, h => h
  | op :: ops, c, h => run_bound b ops (step b c op) (step_bound b c op h)

theorem step_empty {σ ε : Type} (b : MwB σ ε) (c : StackChain σ) (op : Op σ ε)
    (hop : buildOnly op = true) (h : c.exit_stack = []) :
    (step b c op).exit_stack = [] := by
  cases op with
  | linkOp m => simpa [step, link] using h
  | enterOp e => simp [buildOnly] at hop
  | exitOp e => simp [step, chain_exit, h, exitLoop]
  | dispatchOp e => simp [buildOnly] at hop
  | cloneOp => simpa [step, clone] using h

theorem run_empty {σ ε : Type} (b : MwB σ ε) :
    ∀ (ops : List (Op σ ε)) (c : StackChain σ),
      (∀ op ∈ ops, buildOnly op = true) → c.exit_stack = [] →
      (run b c ops).exit_stack = []
  | [], _, _, h => h
  | op :: ops, c, hops, h =>
    run_empty b ops (step b c op) (fun o ho => hops o (List.mem_cons_of_mem op ho))
      (step_empty b c op (hops op (List.mem_cons_self op ops)) h)

/-- C7: along every operation sequence from `new` (or `from_iter`), the exit
trace never exceeds the enter sequence in length; the exit trace is empty as
long as no enter phase (`chain_enter`/`dispatch`) has run; and a
`chain_enter` in which zero middleware entered — an empty stack, or a first
middleware that unwinds — leaves an empty exit trace. -/
theorem reachable_trace_invariant {σ ε : Type} (b : MwB σ ε)
    (ops : List (Op σ ε)) (ms : List (Mw σ)) :
    (run b new ops).exit_stack.length ≤ (run b new ops).stack.length ∧
    (run b (from_iter ms) ops).exit_stack.length ≤
      (run b (from_iter ms) ops).stack.length ∧
    ((∀ op ∈ ops, buildOnly op = true) → (run b new ops).exit_stack = []) ∧
    (∀ (c : StackChain σ) (e : ε), c.stack = [] →
      (chain_enter b c e).chain.exit_stack = []) ∧
    (∀ (c : StackChain σ) (e : ε) (m : Mw σ) (rest : List (Mw σ)),
      c.stack = m :: rest → (b.enter m.mid m.st e).1 = Status.Unwind →
      (chain_enter b c e).chain.exit_stack = []) := by
  refine ⟨run_bound b ops new (Nat.le_refl 0), run_bound b ops (from_iter ms) ?_,
    fun hops => run_empty b ops new hops rfl, fun c e hc => ?_, fun c e m rest hc hu => ?_⟩
  · simp [from_iter]
  · simp only [chain_enter, hc, enterLoop]
  · simp only [chain_enter, hc, enterLoop_cons_unwind b m rest e hu]

/-- Witness for C7: a concrete build-only operation sequence leaves the exit
trace empty. -/
theorem reachable_trace_invariant_witness :
    (run bCont new opsBuild).exit_stack = [] :=
  (reachable_trace_invariant bCont opsBuild []).2.2.1 (by decide)

theorem foldl_link_eq {σ : Type} :
    ∀ (ms : List (Mw σ)) (c : StackChain σ),
      List.foldl link c ms = ⟨c.stack ++ ms, c.exit_stack⟩
  | [], c => by simp
  | m :: ms, c => by
    rw [List.foldl_cons, foldl_link_eq ms (link c m)]
    simp [link]

/-- C8: the `FromIterator` bulk constructor over m1..mn builds the very same
chain as `new` followed by `link m1, ..., link mn` in that order — same enter
sequence, empty exit trace — so every subsequent operation sequence produces
the same results on either. -/
theorem from_iter_refines_linkAll {σ ε : Type} (ms : List (Mw σ)) :
    from_iter ms = linkAll ms ∧
    (from_iter ms).exit_stack = [] ∧
    (from_iter ms).stack = ms ∧
    ∀ (b : MwB σ ε) (ops : List (Op σ ε)),
      run b (from_iter ms) ops = run b (linkAll ms) ops := by
  have h : from_iter ms = linkAll ms := by
    rw [linkAll, foldl_link_eq ms new]
    rfl
  exact ⟨h, rfl, rfl, fun b ops => by rw [h]⟩

/-- Witness for C8: the two constructions coincide on a concrete middleware
list. -/
theorem from_iter_refines_linkAll_witness :
    from_iter [(⟨0, 0⟩ : Mw Nat), ⟨1, 5⟩] = linkAll [⟨0, 0⟩, ⟨1, 5⟩] :=
  (from_iter_refines_linkAll (ε := Nat) [⟨0, 0⟩, ⟨1, 5⟩]).1

/-- C9: calling `chain_exit` twice with no intervening `chain_enter` invokes
`exit` again on the same (identity-wise) middleware clones still held in the
exit trace, in the reverse of the first call's order — i.e. back in original
entry order — because the trace is reversed in place and its elements are not
removed. -/
theorem double_chain_exit {σ ε : Type} (b : MwB σ ε) (c : StackChain σ)
    (e e2 : ε) :
    (chain_exit b c e).events = ((c.exit_stack.map Mw.mid).reverse).map Ev.exitEv ∧
    (chain_exit b (chain_exit b c e).chain e2).events =
      (c.exit_stack.map Mw.mid).map Ev.exitEv ∧
    (chain_exit b (chain_exit b c e).chain e2).events =
      ((chain_exit b c e).events).reverse ∧
    (chain_exit b (chain_exit b c e).chain e2).chain.exit_stack.map Mw.mid =
      c.exit_stack.map Mw.mid := by
  obtain ⟨h1, h2, _, _⟩ := chain_exit_events b c e
  obtain ⟨h1b, h2b, _, _⟩ := chain_exit_events b (chain_exit b c e).chain e2
  refine ⟨h1, ?_, ?_, ?_⟩
  · rw [h1b, h2]
    simp
  · rw [h1b, h2, h1]
    simp [List.map_reverse]
  · rw [h2b, h2]
    simp

/-- Witness for C9: concrete instance — the second exit pass replays the
first one in reverse. -/
theorem double_chain_exit_witness :
    (chain_exit bCont (chain_exit bCont ⟨[], [⟨0, 0⟩, ⟨1, 0⟩]⟩ 0).chain 7).events =
      ((chain_exit bCont ⟨[], [⟨0, 0⟩, ⟨1, 0⟩]⟩ 0).events).reverse :=
  (double_chain_exit bCont ⟨[], [⟨0, 0⟩, ⟨1, 0⟩]⟩ 0 7).2.2.1

/-- C10: the enter/exit phases never add to, remove from, or reorder the
registered enter sequence: `chain_enter` preserves its identity labels and
length and leaves every middleware beyond the invoked ones untouched (it may
only mutate the states of invoked middleware, through their own `enter`
calls); `chain_exit` leaves the enter sequence entirely unchanged; and `link`
appends exactly one middleware at the end, touching nothing else. -/
theorem enter_sequence_frame {σ ε : Type} (b : MwB σ ε) (c : StackChain σ)
    (e : ε) (m : Mw σ) :
    (chain_enter b c e).chain.stack.map Mw.mid = c.stack.map Mw.mid ∧
    (chain_enter b c e).chain.stack.length = c.stack.length ∧
    (∃ k : Nat, k ≤ c.stack.length ∧
      (chain_enter b c e).chain.stack.drop k = c.stack.drop k ∧
      (chain_enter b c e).events = ((c.stack.map Mw.mid).take k).map Ev.enterEv) ∧
    (chain_exit b c e).chain.stack = c.stack ∧
    (link c m).stack = c.stack ++ [m] ∧
    (link c m).exit_stack = c.exit_stack := by
  obtain ⟨k, hk, hev, hmid, hdrop, _, _⟩ := chain_enter_char b c e
  exact ⟨hmid, by simpa using congrArg List.length hmid, ⟨k, hk, hdrop, hev⟩,
    rfl, rfl, rfl⟩

/-- Witness for C10: concrete instance — `chain_exit` leaves the enter
sequence of a populated chain unchanged. -/
theorem enter_sequence_frame_witness :
    (chain_exit bCont chain3 0).chain.stack = chain3.stack :=
  (enter_sequence_frame bCont chain3 0 ⟨9, 9⟩).2.2.2.1

end Iron
